import Mathlib

/-!
Shallow embedding of the FHE string library in src/strings/src/main.rs.

Ciphertexts are modelled at the plaintext level: a RadixCiphertext built from
NUM_BLOCKS = 4 blocks with PARAM_MESSAGE_2_CARRY_2 (2 message bits per block)
carries an 8-bit message, so every homomorphic operation is arithmetic modulo
256 on the underlying value, comparisons return the indicator values 0 or 1,
and decryption as u8 reads the value modulo 256.  Plaintext strings are lists
of character codes (Nat); the Rust cast to u8 at encryption time is the
reduction modulo 256.
-/

/-- Message modulus of a 4-block radix ciphertext with 2-bit message blocks:
2 ^ (2 * 4) = 256. -/
def msgMod : Nat := 256

namespace Engine

/-- Semantics of create_trivial_radix: trivial encryption of a public value. -/
def trivialRadix (v : Nat) : Nat := v % msgMod

/-- Semantics of smart_scalar_add_assign_parallelized. -/
def scalarAdd (a s : Nat) : Nat := (a + s) % msgMod

/-- Semantics of smart_add_assign_parallelized. -/
def add (a b : Nat) : Nat := (a + b) % msgMod

/-- Semantics of smart_sub_parallelized and smart_sub_assign_parallelized:
radix subtraction wraps modulo the message modulus. -/
def sub (a b : Nat) : Nat := (a + (msgMod - b % msgMod)) % msgMod

/-- Semantics of smart_mul_assign_parallelized. -/
def mul (a b : Nat) : Nat := (a * b) % msgMod

/-- Semantics of smart_scalar_mul_assign_parallelized. -/
def scalarMul (a s : Nat) : Nat := (a * s) % msgMod

/-- Semantics of smart_eq_parallelized: encrypted indicator of equality. -/
def eq (a b : Nat) : Nat := if a = b then 1 else 0

/-- Semantics of smart_scalar_eq_parallelized: an 8-bit ciphertext value can
equal a wider scalar only if the scalar itself is the represented value. -/
def scalarEq (a s : Nat) : Nat := if a = s then 1 else 0

/-- Semantics of scalar_gt_parallelized. -/
def scalarGt (a s : Nat) : Nat := if s < a then 1 else 0

/-- Semantics of scalar_lt_parallelized. -/
def scalarLt (a s : Nat) : Nat := if a < s then 1 else 0

/-- Semantics of smart_bitand_assign_parallelized. -/
def bitand (a b : Nat) : Nat := Nat.land a b

end Engine

namespace FheString

/-- FheAscii::encrypt of one character: ck.encrypt(c as u8) stores the code
reduced modulo 256 (the Rust cast to u8). -/
def encryptChar (c : Nat) : Nat := c % msgMod

/-- FheString::encrypt: encrypt each character in order, then append one
terminator slot encrypting 0. -/
def encrypt (s : List Nat) : List Nat := s.map encryptChar ++ [encryptChar 0]

/-- FheString::decrypt: decrypt every slot in order as a u8 character, then
drop the final character (the terminator slot). -/
def decrypt (bs : List Nat) : List Nat := (bs.map (fun b => b % msgMod)).dropLast

/-- FheString::len: a trivially encrypted 0 to which the public quantity
(slot count - 1) is homomorphically added. -/
def len (bs : List Nat) : Nat := Engine.scalarAdd (Engine.trivialRadix 0) (bs.length - 1)

/-- FheString::is_empty: homomorphic scalar equality of len against 0. -/
def is_empty (bs : List Nat) : Nat := Engine.scalarEq (len bs) 0

/-- Per-slot body of to_lower_assign_parallelized: the two range comparisons,
their AND, the multiplication by 32, and the addition into the slot. -/
def toLowerSlot (v : Nat) : Nat :=
  Engine.add v (Engine.scalarMul (Engine.bitand (Engine.scalarGt v 64) (Engine.scalarLt v 91)) 32)

/-- Per-slot body of to_upper_assign_parallelized: the two range comparisons,
their AND, the multiplication by 32, and the subtraction from the slot. -/
def toUpperSlot (v : Nat) : Nat :=
  Engine.sub v (Engine.scalarMul (Engine.bitand (Engine.scalarGt v 96) (Engine.scalarLt v 123)) 32)

/-- FheString::to_lower_assign_parallelized: every slot independently. -/
def to_lower_assign_parallelized (bs : List Nat) : List Nat := bs.map toLowerSlot

/-- FheString::to_upper_assign_parallelized: every slot independently. -/
def to_upper_assign_parallelized (bs : List Nat) : List Nat := bs.map toUpperSlot

/-- Loop of FheString::equals: walk both slot sequences in lockstep, folding
the per-slot equality into the accumulator by multiplication; if one sequence
is exhausted before the other, return a trivially encrypted 0. -/
def equalsAux : Nat → List Nat → List Nat → Nat
  | res, [], [] => res
  | res, a :: xs, b :: ys => equalsAux (Engine.mul res (Engine.eq a b)) xs ys
  | _, _, _ => Engine.trivialRadix 0

/-- FheString::equals: accumulator starts at trivially encrypted 1. -/
def equals (xs ys : List Nat) : Nat := equalsAux (Engine.trivialRadix 1) xs ys

/-- Loop of FheString::equals_plain: the slot sequence against the plaintext
character sequence, per-slot scalar equality folded by multiplication. -/
def equalsPlainAux : Nat → List Nat → List Nat → Nat
  | res, [], [] => res
  | res, a :: xs, c :: cs => equalsPlainAux (Engine.mul res (Engine.scalarEq a c)) xs cs
  | _, _, _ => Engine.trivialRadix 0

/-- FheString::equals_plain. -/
def equals_plain (bs : List Nat) (s : List Nat) : Nat := equalsPlainAux (Engine.trivialRadix 1) bs s

/-- FheString::concat_assign: self.blocks.extend(cipher.blocks.clone()). -/
def concat_assign (self other : List Nat) : List Nat := self ++ other

/-- Loop of FheString::starts_with: the pattern iterator is peekable; a
pattern slot is compared (and folded into the accumulator) only when a next
pattern slot exists; when the peek fails the accumulator is returned; when
the pattern iterator itself is exhausted, or self runs out of slots while
pattern content remains, a trivially encrypted 0 is returned. -/
def startsWithAux : Nat → List Nat → List Nat → Nat
  | _, _, [] => Engine.trivialRadix 0
  | res, _, [_] => res
  | _, [], _ :: _ :: _ => Engine.trivialRadix 0
  | res, c1 :: selfRest, cur :: nxt :: rest =>
      startsWithAux (Engine.mul res (Engine.eq cur c1)) selfRest (nxt :: rest)

/-- FheString::starts_with. -/
def starts_with (self pat : List Nat) : Nat := startsWithAux (Engine.trivialRadix 1) self pat

/-- Loop of FheString::starts_with_plain: same walk, with the plaintext
pattern characters in the peekable iterator and scalar equality per slot. -/
def startsWithPlainAux : Nat → List Nat → List Nat → Nat
  | _, _, [] => Engine.trivialRadix 0
  | res, _, [_] => res
  | _, [], _ :: _ :: _ => Engine.trivialRadix 0
  | res, c1 :: selfRest, cur :: nxt :: rest =>
      startsWithPlainAux (Engine.mul res (Engine.scalarEq c1 cur)) selfRest (nxt :: rest)

/-- FheString::starts_with_plain. -/
def starts_with_plain (self : List Nat) (s : List Nat) : Nat :=
  startsWithPlainAux (Engine.trivialRadix 1) self s

end FheString

/-- A plaintext string over the single-byte alphabet of the design: every
character code fits in one byte. -/
def ByteStr (s : List Nat) : Prop := ∀ c ∈ s, c < 256

/-- Invariant of an encrypted string: at least one slot, and the last slot
decrypts to 0 (as a u8, i.e. modulo 256). -/
def StrInvariant (bs : List Nat) : Prop :=
  1 ≤ bs.length ∧ bs.getLastD 1 % 256 = 0

instance decByteStr (s : List Nat) : Decidable (ByteStr s) :=
  inferInstanceAs (Decidable (∀ c ∈ s, c < 256))

instance decStrInvariant (bs : List Nat) : Decidable (StrInvariant bs) :=
  inferInstanceAs (Decidable (1 ≤ bs.length ∧ bs.getLastD 1 % 256 = 0))

/-! Helper lemmas shared by the claim theorems. -/

lemma byteStr_map_mod (s : List Nat) (h : ByteStr s) : s.map (fun c => c % msgMod) = s := by
  induction s with
  | nil => rfl
  | cons a t ih =>
    have ha : a < 256 := h a (List.mem_cons_self a t)
    have ha2 : a % msgMod = a := Nat.mod_eq_of_lt (by simpa [msgMod] using ha)
    have ht : ByteStr t := fun c hc => h c (List.mem_cons_of_mem a hc)
    simp [List.map_cons, ha2, ih ht]

lemma encrypt_eq_append (s : List Nat) (h : ByteStr s) : FheString.encrypt s = s ++ [0] := by
  unfold FheString.encrypt FheString.encryptChar
  rw [byteStr_map_mod s h]
  simp

lemma decrypt_encrypt (s : List Nat) (h : ByteStr s) :
    FheString.decrypt (FheString.encrypt s) = s := by
  unfold FheString.decrypt
  rw [encrypt_eq_append s h, List.map_append, byteStr_map_mod s h]
  simp

lemma equalsAux_eq (xs : List Nat) : ∀ ys res, res < msgMod →
    FheString.equalsAux res xs ys = if xs = ys then res else 0 := by
  induction xs with
  | nil =>
    intro ys res _
    cases ys with
    | nil => simp [FheString.equalsAux]
    | cons b ys2 => simp [FheString.equalsAux, Engine.trivialRadix, msgMod]
  | cons a xs2 ih =>
    intro ys res hres
    cases ys with
    | nil => simp [FheString.equalsAux, Engine.trivialRadix, msgMod]
    | cons b ys2 =>
      show FheString.equalsAux (Engine.mul res (Engine.eq a b)) xs2 ys2 = _
      by_cases hab : a = b
      · have hm : Engine.mul res (Engine.eq a b) = res := by
          simp [Engine.mul, Engine.eq, hab, Nat.mod_eq_of_lt hres]
        rw [hm, ih ys2 res hres]
        simp [hab]
      · have hm : Engine.mul res (Engine.eq a b) = 0 := by
          simp [Engine.mul, Engine.eq, hab]
        rw [hm, ih ys2 0 (by norm_num [msgMod])]
        simp [hab]

lemma equalsPlainAux_eq (xs : List Nat) : ∀ ys res, res < msgMod →
    FheString.equalsPlainAux res xs ys = if xs = ys then res else 0 := by
  induction xs with
  | nil =>
    intro ys res _
    cases ys with
    | nil => simp [FheString.equalsPlainAux]
    | cons b ys2 => simp [FheString.equalsPlainAux, Engine.trivialRadix, msgMod]
  | cons a xs2 ih =>
    intro ys res hres
    cases ys with
    | nil => simp [FheString.equalsPlainAux, Engine.trivialRadix, msgMod]
    | cons b ys2 =>
      show FheString.equalsPlainAux (Engine.mul res (Engine.scalarEq a b)) xs2 ys2 = _
      by_cases hab : a = b
      · have hm : Engine.mul res (Engine.scalarEq a b) = res := by
          simp [Engine.mul, Engine.scalarEq, hab, Nat.mod_eq_of_lt hres]
        rw [hm, ih ys2 res hres]
        simp [hab]
      · have hm : Engine.mul res (Engine.scalarEq a b) = 0 := by
          simp [Engine.mul, Engine.scalarEq, hab]
        rw [hm, ih ys2 0 (by norm_num [msgMod])]
        simp [hab]

lemma startsWithAux_eq (pat : List Nat) : ∀ self res, res < msgMod →
    FheString.startsWithAux res self pat =
      if pat = [] then 0 else if pat.dropLast.isPrefixOf self then res else 0 := by
  induction pat with
  | nil =>
    intro self res _
    simp [FheString.startsWithAux, Engine.trivialRadix, msgMod]
  | cons cur tl ih =>
    intro self res hres
    cases tl with
    | nil =>
      simp [FheString.startsWithAux, List.dropLast, List.isPrefixOf]
    | cons nxt rest =>
      cases self with
      | nil =>
        simp [FheString.startsWithAux, Engine.trivialRadix, msgMod, List.dropLast,
          List.isPrefixOf]
      | cons c1 selfRest =>
        show FheString.startsWithAux (Engine.mul res (Engine.eq cur c1)) selfRest (nxt :: rest) = _
        by_cases hc : cur = c1
        · subst hc
          have hm : Engine.mul res (Engine.eq cur cur) = res := by
            simp [Engine.mul, Engine.eq, Nat.mod_eq_of_lt hres]
          rw [hm, ih selfRest res hres]
          simp [List.dropLast, List.isPrefixOf]
        · have hm : Engine.mul res (Engine.eq cur c1) = 0 := by
            simp [Engine.mul, Engine.eq, hc]
          rw [hm, ih selfRest 0 (by norm_num [msgMod])]
          simp [List.dropLast, List.isPrefixOf, hc]

lemma len_encrypt_mod (s : List Nat) : FheString.len (FheString.encrypt s) = s.length % 256 := by
  unfold FheString.len FheString.encrypt Engine.scalarAdd Engine.trivialRadix msgMod
  simp

lemma getLastD_map (f : Nat → Nat) (bs : List Nat) :
    ∀ d, (bs.map f).getLastD (f d) = f (bs.getLastD d) := by
  induction bs with
  | nil => intro d; rfl
  | cons a t ih =>
    intro d
    rw [List.map_cons, List.getLastD_cons, List.getLastD_cons, ih a]

lemma getLastD_default_irrel (b : List Nat) (hb : b ≠ []) (d1 d2 : Nat) :
    b.getLastD d1 = b.getLastD d2 := by
  cases b with
  | nil => exact absurd rfl hb
  | cons y u => rw [List.getLastD_cons, List.getLastD_cons]

lemma getLastD_append_ne_nil (b : List Nat) (hb : b ≠ []) (a : List Nat) :
    ∀ d, (a ++ b).getLastD d = b.getLastD d := by
  induction a with
  | nil => intro d; rfl
  | cons x t ih =>
    intro d
    rw [List.cons_append, List.getLastD_cons, ih x]
    exact getLastD_default_irrel b hb x d

lemma land_zero (x : Nat) : Nat.land x 0 = 0 := Nat.and_zero x

lemma toLowerSlot_of_mod_zero (v : Nat) (h : v % 256 = 0) :
    FheString.toLowerSlot v % 256 = 0 := by
  unfold FheString.toLowerSlot Engine.add Engine.scalarMul Engine.bitand Engine.scalarGt
    Engine.scalarLt msgMod
  rcases Nat.lt_or_ge v 256 with hv | hv
  · have hv0 : v = 0 := by omega
    subst hv0
    decide
  · have h91 : ¬ v < 91 := by omega
    simp only [h91, if_false, land_zero]
    omega

lemma toUpperSlot_of_mod_zero (v : Nat) (h : v % 256 = 0) :
    FheString.toUpperSlot v % 256 = 0 := by
  unfold FheString.toUpperSlot Engine.sub Engine.scalarMul Engine.bitand Engine.scalarGt
    Engine.scalarLt msgMod
  rcases Nat.lt_or_ge v 256 with hv | hv
  · have hv0 : v = 0 := by omega
    subst hv0
    decide
  · have h123 : ¬ v < 123 := by omega
    simp only [h123, if_false, land_zero]
    omega

/-! Claim theorems. -/

/-- C1: for every plaintext string s not containing the terminator byte, with
every character code fitting in one byte, decrypting the encryption of s
returns s. -/
theorem decrypt_encrypt_roundtrip (s : List Nat) (h0 : 0 ∉ s) (hb : ByteStr s) :
    FheString.decrypt (FheString.encrypt s) = s :=
  decrypt_encrypt s hb

/-- C1 witness. -/
theorem decrypt_encrypt_roundtrip_witness :
    FheString.decrypt (FheString.encrypt [72, 105]) = [72, 105] :=
  decrypt_encrypt_roundtrip [72, 105] (by decide) (by decide)

/-- C2: equals on two encrypted byte strings decrypts to 1 exactly when the
plaintexts are equal, and whenever the declared slot counts differ the result
is the trivially encrypted 0. -/
theorem equals_encrypt_correct (a b : List Nat) (ha : ByteStr a) (hb : ByteStr b) :
    FheString.equals (FheString.encrypt a) (FheString.encrypt b) = (if a = b then 1 else 0)
    ∧ ((FheString.encrypt a).length ≠ (FheString.encrypt b).length →
        FheString.equals (FheString.encrypt a) (FheString.encrypt b) = 0) := by
  have h1 : FheString.equals (FheString.encrypt a) (FheString.encrypt b)
      = if a = b then 1 else 0 := by
    unfold FheString.equals
    rw [equalsAux_eq (FheString.encrypt a) (FheString.encrypt b) (Engine.trivialRadix 1)
      (by norm_num [Engine.trivialRadix, msgMod])]
    rw [encrypt_eq_append a ha, encrypt_eq_append b hb]
    have ht : Engine.trivialRadix 1 = 1 := rfl
    rw [ht]
    simp [List.append_left_inj]
  refine ⟨h1, fun hlen => ?_⟩
  have hne : a ≠ b := fun hab => hlen (by rw [hab])
  rw [h1, if_neg hne]

/-- C2 witness. -/
theorem equals_encrypt_correct_witness :
    FheString.equals (FheString.encrypt [68, 105]) (FheString.encrypt [68, 105]) = 1 := by
  have h := (equals_encrypt_correct [68, 105] [68, 105] (by decide) (by decide)).1
  simpa using h

/-- C3 is a code bug: equals_plain walks all slots of self, terminator slot
included, against the plaintext characters, so comparing encrypt("abc") with
the plaintext "abc" takes the mismatched-length path (4 slots against 3
characters) and yields the trivially encrypted 0, while the claim requires
it to decrypt to 1. -/
theorem equals_plain_self_is_zero :
    FheString.equals_plain (FheString.encrypt [97, 98, 99]) [97, 98, 99] = 0 := by
  decide

/-- C10: decrypt removes only the final character and never stops at an
embedded terminator slot, so concatenation of two encrypted strings decrypts
to the first string, a literal 0 character, then the second string, and the
encrypt/decrypt round trip also holds for plaintexts containing the
terminator byte (the second conjunct places no exclusion on 0 in s). -/
theorem decrypt_concat_embedded_terminator (a b s : List Nat)
    (ha : ByteStr a) (hb : ByteStr b) (hs : ByteStr s) :
    FheString.decrypt (FheString.concat_assign (FheString.encrypt a) (FheString.encrypt b))
      = a ++ 0 :: b
    ∧ FheString.decrypt (FheString.encrypt s) = s := by
  constructor
  · have hab : ByteStr (a ++ 0 :: b) := by
      intro c hcmem
      rcases List.mem_append.mp hcmem with hmem | hmem
      · exact ha c hmem
      · rcases List.mem_cons.mp hmem with h0 | hmem
        · omega
        · exact hb c hmem
    have hc : FheString.concat_assign (FheString.encrypt a) (FheString.encrypt b)
        = (a ++ 0 :: b) ++ [0] := by
      rw [FheString.concat_assign, encrypt_eq_append a ha, encrypt_eq_append b hb]
      simp
    rw [hc]
    unfold FheString.decrypt
    rw [List.map_append, byteStr_map_mod (a ++ 0 :: b) hab]
    have hm : List.map (fun x => x % msgMod) [0] = [0] := by simp
    rw [hm, List.dropLast_concat]
  · exact decrypt_encrypt s hs

/-- C10 witness. -/
theorem decrypt_concat_embedded_terminator_witness :
    FheString.decrypt
      (FheString.concat_assign (FheString.encrypt [70, 111, 111]) (FheString.encrypt [66, 97, 114]))
      = [70, 111, 111] ++ 0 :: [66, 97, 114] :=
  (decrypt_concat_embedded_terminator [70, 111, 111] [66, 97, 114] []
    (by decide) (by decide) (by decide)).1

/-- C4 counterexample: with s = "a" and p = "a\x00" (codes [97] and [97, 0]),
starts_with(encrypt(s), encrypt(p)) is 1 even though s does not start with p;
the content comparison runs over p against the slots of s followed by the
terminator, so the extra terminator character of p matches the terminator
slot of s. -/
theorem starts_with_claim_counterexample :
    FheString.starts_with (FheString.encrypt [97]) (FheString.encrypt [97, 0]) = 1
    ∧ [97, 0].isPrefixOf [97] = false := by
  decide

/-- C4 amended: over byte strings, starts_with(encrypt(s), encrypt(p))
decrypts to 1 exactly when p is a prefix of s followed by the terminator
slot, that is, when s starts with p or p is exactly s followed by the
terminator byte; in every other case it is 0. -/
theorem starts_with_encrypt_characterization (s p : List Nat)
    (hs : ByteStr s) (hp : ByteStr p) :
    FheString.starts_with (FheString.encrypt s) (FheString.encrypt p)
      = if p.isPrefixOf (s ++ [0]) then 1 else 0 := by
  unfold FheString.starts_with
  rw [startsWithAux_eq (FheString.encrypt p) (FheString.encrypt s) (Engine.trivialRadix 1)
    (by norm_num [Engine.trivialRadix, msgMod])]
  rw [encrypt_eq_append s hs, encrypt_eq_append p hp]
  have hne : p ++ [0] ≠ [] := by simp
  rw [if_neg hne, List.dropLast_concat]
  have ht : Engine.trivialRadix 1 = 1 := rfl
  rw [ht]

/-- C4 witness. -/
theorem starts_with_encrypt_characterization_witness :
    FheString.starts_with (FheString.encrypt [68, 105, 118]) (FheString.encrypt [68, 105]) = 1 := by
  have h := starts_with_encrypt_characterization [68, 105, 118] [68, 105] (by decide) (by decide)
  rw [h]
  decide

/-- C5 is a code bug: starts_with_plain receives the plaintext pattern with
no terminator, so the look-ahead treats the last character of p as the
terminator and compares only p minus its final character; with s = "ab" and
p = "ac" (codes [97, 98] and [97, 99]) the code returns 1 although s does
not start with p. -/
theorem starts_with_plain_drops_last_char :
    FheString.starts_with_plain (FheString.encrypt [97, 98]) [97, 99] = 1
    ∧ [97, 99].isPrefixOf [97, 98] = false := by
  decide

/-- C6: for every slot value below the message modulus, the lower-case pass
adds 32 exactly on codes in the open range (64, 91) and the upper-case pass
subtracts 32 exactly on codes in the open range (96, 123); both passes map
each slot independently and keep the slot count unchanged. -/
theorem case_conversion_slots (v : Nat) (hv : v < 256) (bs : List Nat) :
    FheString.toLowerSlot v = v + (if 64 < v ∧ v < 91 then 32 else 0)
    ∧ FheString.toUpperSlot v = v - (if 96 < v ∧ v < 123 then 32 else 0)
    ∧ FheString.to_lower_assign_parallelized bs = bs.map FheString.toLowerSlot
    ∧ FheString.to_upper_assign_parallelized bs = bs.map FheString.toUpperSlot
    ∧ (FheString.to_lower_assign_parallelized bs).length = bs.length
    ∧ (FheString.to_upper_assign_parallelized bs).length = bs.length := by
  refine ⟨?_, ?_, rfl, rfl, by simp [FheString.to_lower_assign_parallelized],
    by simp [FheString.to_upper_assign_parallelized]⟩
  · unfold FheString.toLowerSlot Engine.add Engine.scalarMul Engine.bitand Engine.scalarGt
      Engine.scalarLt msgMod
    by_cases h1 : 64 < v
    · by_cases h2 : v < 91
      · simp only [h1, h2, if_true, and_true, and_self]
        rw [show Nat.land 1 1 = 1 from rfl]
        rw [show (1 * 32) % 256 = 32 from rfl]
        rw [Nat.mod_eq_of_lt (by omega)]
      · simp only [h1, h2, if_true, if_false, and_false, land_zero]
        rw [show (0 * 32) % 256 = 0 from rfl]
        rw [Nat.mod_eq_of_lt (by omega)]
    · by_cases h2 : v < 91
      · simp only [h1, h2, if_true, if_false, false_and]
        rw [show Nat.land 0 1 = 0 from rfl]
        rw [show (0 * 32) % 256 = 0 from rfl]
        rw [Nat.mod_eq_of_lt (by omega)]
      · simp only [h1, h2, if_false, false_and, land_zero]
        rw [show (0 * 32) % 256 = 0 from rfl]
        rw [Nat.mod_eq_of_lt (by omega)]
  · unfold FheString.toUpperSlot Engine.sub Engine.scalarMul Engine.bitand Engine.scalarGt
      Engine.scalarLt msgMod
    by_cases h1 : 96 < v
    · by_cases h2 : v < 123
      · simp only [h1, h2, if_true, and_true, and_self]
        rw [show Nat.land 1 1 = 1 from rfl]
        rw [show (1 * 32) % 256 % 256 = 32 from rfl]
        omega
      · simp only [h1, h2, if_true, if_false, and_false, land_zero]
        rw [show (0 * 32) % 256 % 256 = 0 from rfl]
        omega
    · by_cases h2 : v < 123
      · simp only [h1, h2, if_true, if_false, false_and]
        rw [show Nat.land 0 1 = 0 from rfl]
        rw [show (0 * 32) % 256 % 256 = 0 from rfl]
        omega
      · simp only [h1, h2, if_false, false_and, land_zero]
        rw [show (0 * 32) % 256 % 256 = 0 from rfl]
        omega

/-- C6 witness. -/
theorem case_conversion_slots_witness :
    FheString.toLowerSlot 65 = 65 + (if 64 < 65 ∧ 65 < 91 then 32 else 0) := by
  exact (case_conversion_slots 65 (by decide) []).1

/-- C7 counterexample: a string of 256 characters has declared slot count
257, and len returns (257 - 1) mod 256 = 0, which is not the character
count of the plaintext. -/
theorem len_encrypt_wraps_at_256 :
    FheString.len (FheString.encrypt (List.replicate 256 0))
      ≠ (List.replicate 256 0).length := by
  rw [len_encrypt_mod, List.length_replicate]
  norm_num

/-- C7 amended: decrypting len(encrypt(s)) yields the character count of s
reduced modulo 256 (the 8-bit message space of the 4-block radix
ciphertext), hence exactly the character count whenever s has fewer than
256 characters; it is produced as a trivially encrypted 0 plus the public
quantity (slot count - 1). -/
theorem len_encrypt_mod_256 (s : List Nat) :
    FheString.len (FheString.encrypt s) = s.length % 256
    ∧ (s.length < 256 → FheString.len (FheString.encrypt s) = s.length) := by
  refine ⟨len_encrypt_mod s, fun h => ?_⟩
  rw [len_encrypt_mod s]
  exact Nat.mod_eq_of_lt h

/-- C7 witness. -/
theorem len_encrypt_mod_256_witness :
    FheString.len (FheString.encrypt [104, 105]) = [104, 105].length :=
  (len_encrypt_mod_256 [104, 105]).2 (by decide)

/-- C8 counterexample: concatenating encrypt("F") and encrypt("B") (codes
[70] and [66]) gives the slots [70, 0, 66, 0]; the copy of the terminator
slot of other lands at index self.length + (other.length - 1) = 3, which is
the final index of the result, so it is not a middle, non-final slot.  The
internal terminator at index 1 is the former terminator of self. -/
theorem concat_other_terminator_is_final :
    FheString.concat_assign (FheString.encrypt [70]) (FheString.encrypt [66]) = [70, 0, 66, 0]
    ∧ (FheString.encrypt [70]).length + ((FheString.encrypt [66]).length - 1)
      = (FheString.concat_assign (FheString.encrypt [70]) (FheString.encrypt [66])).length - 1 := by
  decide

/-- C8 amended: concat_assign appends every slot of other (terminator
included) to self, so the slot count is the sum of both counts; the slot at
index a.length, the former terminator of self, is an ordinary non-final slot
holding 0 in the middle of the result, while the terminator of other is the
final slot. -/
theorem concat_assign_append_props (a b : List Nat) :
    FheString.concat_assign (FheString.encrypt a) (FheString.encrypt b)
      = FheString.encrypt a ++ FheString.encrypt b
    ∧ (FheString.concat_assign (FheString.encrypt a) (FheString.encrypt b)).length
      = (FheString.encrypt a).length + (FheString.encrypt b).length
    ∧ (FheString.concat_assign (FheString.encrypt a) (FheString.encrypt b))[a.length]? = some 0
    ∧ a.length < (FheString.concat_assign (FheString.encrypt a) (FheString.encrypt b)).length - 1 := by
  have hl : (List.map FheString.encryptChar a).length = a.length := by simp
  refine ⟨rfl, by simp [FheString.concat_assign], ?_, ?_⟩
  · unfold FheString.concat_assign FheString.encrypt
    rw [List.getElem?_append_left (by simp)]
    rw [← hl, List.getElem?_concat_length]
    rfl
  · simp [FheString.concat_assign, FheString.encrypt]

/-- C9: every encrypted string has at least one slot whose last slot
decrypts to 0, and the case conversions and concatenation preserve this
invariant. -/
theorem invariant_preservation :
    (∀ s : List Nat, StrInvariant (FheString.encrypt s))
    ∧ (∀ bs : List Nat, StrInvariant bs → StrInvariant (FheString.to_lower_assign_parallelized bs))
    ∧ (∀ bs : List Nat, StrInvariant bs → StrInvariant (FheString.to_upper_assign_parallelized bs))
    ∧ (∀ a b : List Nat, StrInvariant a → StrInvariant b →
        StrInvariant (FheString.concat_assign a b)) := by
  refine ⟨?_, ?_, ?_, ?_⟩
  · intro s
    constructor
    · simp [FheString.encrypt]
    · unfold FheString.encrypt
      rw [getLastD_append_ne_nil [FheString.encryptChar 0] (by simp) (s.map FheString.encryptChar) 1]
      rfl
  · intro bs hbs
    obtain ⟨hlen, hlast⟩ := hbs
    have hne : bs ≠ [] := by
      cases bs with
      | nil => simp at hlen
      | cons x t => simp
    constructor
    · simpa [FheString.to_lower_assign_parallelized] using hlen
    · unfold FheString.to_lower_assign_parallelized
      have h1 : (bs.map FheString.toLowerSlot).getLastD 1
          = (bs.map FheString.toLowerSlot).getLastD (FheString.toLowerSlot 1) := by
        apply getLastD_default_irrel
        simpa using hne
      rw [h1, getLastD_map]
      exact toLowerSlot_of_mod_zero _ hlast
  · intro bs hbs
    obtain ⟨hlen, hlast⟩ := hbs
    have hne : bs ≠ [] := by
      cases bs with
      | nil => simp at hlen
      | cons x t => simp
    constructor
    · simpa [FheString.to_upper_assign_parallelized] using hlen
    · unfold FheString.to_upper_assign_parallelized
      have h1 : (bs.map FheString.toUpperSlot).getLastD 1
          = (bs.map FheString.toUpperSlot).getLastD (FheString.toUpperSlot 1) := by
        apply getLastD_default_irrel
        simpa using hne
      rw [h1, getLastD_map]
      exact toUpperSlot_of_mod_zero _ hlast
  · intro a b ha hb
    obtain ⟨hla, _⟩ := ha
    obtain ⟨hlb, hlast⟩ := hb
    have hbne : b ≠ [] := by
      cases b with
      | nil => simp at hlb
      | cons x t => simp
    constructor
    · simp only [FheString.concat_assign, List.length_append]
      omega
    · unfold FheString.concat_assign
      rw [getLastD_append_ne_nil b hbne a 1]
      exact hlast

/-- C9 witness. -/
theorem invariant_preservation_witness :
    StrInvariant (FheString.encrypt [97])
    ∧ StrInvariant (FheString.concat_assign [97, 0] [98, 0]) :=
  ⟨invariant_preservation.1 [97],
   invariant_preservation.2.2.2 [97, 0] [98, 0] (by decide) (by decide)⟩
